import Mathlib

/-!
Verification of the playlist sequencing engine of the DJ song-order
recommender (`src/app.py`).

The engine consists of four functions, embedded here from the Python
source:

* `key_distance`  — harmonic distance between two Camelot codes
  (app.py, lines 183–217);
* `distance`      — pairwise song distance blending tempo and key
  (app.py, lines 219–223; the spec calls it `compute_distance`);
* `make_End_list` — nearest-neighbour tour construction followed by
  first-improvement 2-opt (app.py, lines 226–286; the spec calls it
  `build_optimized_order`);
* `add_song_after` — least-added-cost insertion into an ordered list
  (app.py, lines 289–340; the spec calls it `insert_into_order`).

Modelling conventions.
* Tempos are integers (`Option Int`): the data layer produces them via
  Python `int(...)`, and a missing tempo is `None`.  Python truthiness
  (`SONG1.tempo and SONG2.tempo`) makes both `None` and `0` falsy.
* Every distance value produced by the engine is a non-negative integer:
  the three tempo candidates are integer absolute differences, and the
  key term is `4.0 * abs(key_distance ...)` with an integer
  `key_distance`.  The Python floats are therefore exact and are
  modelled as `Nat` (for `distance`) and `Int` (for `key_distance` and
  insertion costs, which can be negative).
* The unvisited pool of the nearest-neighbour phase is a CPython `set`
  of the indices `0..n-1`.  For such a set (all elements below the
  hash-table size, which `set(range(n))` guarantees) iteration is in
  increasing numeric order, and `min` keeps the first element attaining
  the minimum; the pool is modelled as a strictly ascending list, with
  `min(unvisited, key=...)` modelled by `argminFirst`.
* The unbounded `while improved:` loop of the 2-opt phase is modelled
  with explicit fuel `pathCost songs tour + 1`; every accepted swap
  strictly decreases the integer path cost, so this fuel is proved
  sufficient (the loop reaches a scan with no improving move, and
  further iterations change nothing).
-/

namespace DJ

/-- A song record as consumed by the engine: the fields of `SongInfo` /
the song dictionaries in `app.py`.  Only `tempo` and `camelot` are read
by the distance function; the rest is carried data. -/
structure Song where
  title : String
  artist : String
  tempo : Option Int
  key : Option String
  camelot : Option String
  genre : String
deriving Repr, DecidableEq

instance : Inhabited Song := ⟨⟨"", "", none, none, none, ""⟩⟩

/-- Python truthiness of an optional string: `None` and `""` are falsy
(`if not camelot1 or not camelot2`, app.py line 188). -/
def truthyStr : Option String → Bool
  | none => false
  | some s => !s.isEmpty

/-- Numeric value of a list of decimal digit characters, as Python
`int` parses the concatenation of the digits. -/
def digitsVal (cs : List Char) : Nat :=
  cs.foldl (fun n c => 10 * n + (c.toNat - 48)) 0

/-- `int(''.join(filter(str.isdigit, s)))` (app.py lines 193/195):
`none` when `s` has no digit characters (Python `int('')` raises, caught
by the surrounding `try`). -/
def camelotNum (s : String) : Option Nat :=
  let ds := s.toList.filter Char.isDigit
  if ds.isEmpty then none else some (digitsVal ds)

/-- `''.join(filter(str.isalpha, s)).upper()` (app.py lines 194/196). -/
def camelotLetters (s : String) : List Char :=
  (s.toList.filter Char.isAlpha).map Char.toUpper

/-- `key_distance` from app.py lines 183–217.  Returns an `Int`: the
wheel distance `min(|n1-n2|, 12-|n1-n2|)` can be negative when a
parseable code carries a number outside 1..12. -/
def key_distance (camelot1 camelot2 : Option String) : Int :=
  if !(truthyStr camelot1) || !(truthyStr camelot2) then 6
  else
    match camelotNum (camelot1.getD ""), camelotNum (camelot2.getD "") with
    | none, _ => 6
    | _, none => 6
    | some num1, some num2 =>
      let letter1 := camelotLetters (camelot1.getD "")
      let letter2 := camelotLetters (camelot2.getD "")
      if num1 = num2 ∧ letter1 = letter2 then 0
      else if num1 = num2 then 1
      else
        let wheel_distance : Int :=
          min (((num1 : Int) - (num2 : Int)).natAbs : Int)
            (12 - (((num1 : Int) - (num2 : Int)).natAbs : Int))
        if wheel_distance = 1 ∧ letter1 = letter2 then 1
        else wheel_distance + (if letter1 = letter2 then 0 else 1)

/-- Python truthiness of an optional integer tempo: `None` and `0` are
falsy. -/
def tempoOk : Option Int → Bool
  | none => false
  | some v => v ≠ 0

/-- `distance` from app.py lines 219–223 (the spec's
`compute_distance`).  All three tempo candidates fall back to `100`
when either tempo is missing or zero; the key term is
`4.0 * abs(key_distance ...)`.  The value is a non-negative integer,
modelled as `Nat`. -/
def distance (SONG1 SONG2 : Song) : Nat :=
  let t1 := SONG1.tempo.getD 0
  let t2 := SONG2.tempo.getD 0
  let ok := tempoOk SONG1.tempo && tempoOk SONG2.tempo
  let tempo_diff1 := if ok then (t1 - t2).natAbs else 100
  let tempo_diff2 := if ok then (t1 - 2 * t2).natAbs else 100
  let tempo_diff3 := if ok then (2 * t1 - t2).natAbs else 100
  min (min tempo_diff1 tempo_diff2) tempo_diff3
    + 4 * (key_distance SONG1.camelot SONG2.camelot).natAbs

/-- Python `min(l, key=f)` over a non-empty pool: the first element
attaining the minimal key under a left-to-right scan (later elements
replace the champion only on strict improvement). -/
def argminFirst (f : Nat → Nat) : List Nat → Option Nat
  | [] => none
  | x :: xs => some (xs.foldl (fun b y => if f y < f b then y else b) x)

/-- The nearest-neighbour loop of `make_End_list` (app.py lines
254–258): repeatedly append the unvisited index closest to the current
song and remove it from the pool.  `fuel` is the pool size. -/
def nnLoop (songs : List Song) : Nat → Nat → List Nat → List Nat
  | 0, _, _ => []
  | fuel + 1, current, unvisited =>
    match argminFirst
        (fun i => distance (songs.getD current default) (songs.getD i default))
        unvisited with
    | none => []
    | some nearest =>
      nearest :: nnLoop songs fuel nearest (unvisited.erase nearest)

/-- The nearest-neighbour tour of app.py lines 248–258: start at index
0, then visit all remaining indices greedily. -/
def nnTour (songs : List Song) : List Nat :=
  0 :: nnLoop songs (songs.length - 1) 0 ((List.range songs.length).erase 0)

/-- Total cost of a tour read as a path: the sum of `distance` over
consecutive pairs.  This is the quantity each accepted 2-opt swap
strictly decreases. -/
def pathCost (songs : List Song) : List Nat → Nat
  | [] => 0
  | [_] => 0
  | a :: b :: rest =>
    distance (songs.getD a default) (songs.getD b default)
      + pathCost songs (b :: rest)

/-- The `(i, j)` pairs scanned by one 2-opt pass, in scan order:
`i in range(1, n-2)`, `j in range(i+1, n)` with `j - i == 1` skipped
(app.py lines 264–267), i.e. `j` from `i+2` to `n-1`. -/
def twoOptPairs (n : Nat) : List (Nat × Nat) :=
  (List.range' 1 (n - 3)).flatMap fun i =>
    (List.range' (i + 2) (n - (i + 2))).map fun j => (i, j)

/-- The 2-opt acceptance test of app.py lines 269–277: the two candidate
edges are strictly cheaper than the two current edges. -/
def improves (songs : List Song) (tour : List Nat) (p : Nat × Nat) : Bool :=
  let g := fun k => songs.getD (tour.getD k 0) default
  distance (g (p.1 - 1)) (g (p.2 - 1))
      + distance (g p.1) (g (p.2 % tour.length))
    < distance (g (p.1 - 1)) (g p.1)
      + distance (g (p.2 - 1)) (g (p.2 % tour.length))

/-- `tour[i:j] = reversed(tour[i:j])` (app.py line 279). -/
def reverseSegment (l : List Nat) (i j : Nat) : List Nat :=
  l.take i ++ ((l.drop i).take (j - i)).reverse ++ l.drop j

/-- One round of the 2-opt scan: find the first improving pair in scan
order and apply its segment reversal; `none` when a full scan finds no
improving move. -/
def twoOptStep (songs : List Song) (tour : List Nat) : Option (List Nat) :=
  ((twoOptPairs tour.length).find? (improves songs tour)).map fun p =>
    reverseSegment tour p.1 p.2

/-- The `while improved:` loop of app.py lines 261–283, with explicit
fuel: after each accepted swap the scan restarts from the beginning. -/
def twoOptIter (songs : List Song) : Nat → List Nat → List Nat
  | 0, tour => tour
  | fuel + 1, tour =>
    match twoOptStep songs tour with
    | none => tour
    | some tour1 => twoOptIter songs fuel tour1

/-- The index tour computed by `make_End_list` for an input of length
at least 2: nearest-neighbour construction then 2-opt to convergence.
The fuel `pathCost songs (nnTour songs) + 1` is proved sufficient in
`twoOptIter_fix_of_lt`. -/
def optimizedTour (songs : List Song) : List Nat :=
  twoOptIter songs (pathCost songs (nnTour songs) + 1) (nnTour songs)

/-- `make_End_list` from app.py lines 226–286 (the spec's
`build_optimized_order`): inputs of length ≤ 1 are returned unchanged;
otherwise the songs are re-ordered along the optimized index tour. -/
def make_End_list (Song_List : List Song) : List Song :=
  if Song_List.length ≤ 1 then Song_List
  else (optimizedTour Song_List).map fun i => Song_List.getD i default

/-- The added cost of inserting `new_song` at position `i` of the
ordered list (app.py lines 319–332): an end position costs one new
edge; an interior position costs the two new edges minus the removed
edge, and can be negative. -/
def addedCost (l : List Song) (new_song : Song) (i : Nat) : Int :=
  if i = 0 then (distance new_song (l.getD 0 default) : Int)
  else if i = l.length then (distance (l.getD (l.length - 1) default) new_song : Int)
  else (distance (l.getD (i - 1) default) new_song : Int)
      + (distance new_song (l.getD i default) : Int)
      - (distance (l.getD (i - 1) default) (l.getD i default) : Int)

/-- The scan of app.py lines 315–336: `best_position` starts at 0 with
`min_added_distance = inf`, so position 0 is always adopted first and
later positions replace it only on strict improvement. -/
def bestPosition (l : List Song) (new_song : Song) : Nat :=
  ((List.range' 1 l.length).foldl
      (fun bm i =>
        if addedCost l new_song i < bm.2 then (i, addedCost l new_song i) else bm)
      (0, addedCost l new_song 0)).1

/-- `add_song_after` from app.py lines 289–340 (the spec's
`insert_into_order`). -/
def add_song_after (optimized_list : List Song) (new_song : Song) : List Song :=
  if optimized_list.isEmpty then [new_song]
  else if optimized_list.length = 1 then optimized_list ++ [new_song]
  else
    let best_position := bestPosition optimized_list new_song
    optimized_list.take best_position ++ [new_song]
      ++ optimized_list.drop best_position

/-! ### Spec-side definitions

Used to compare the code against the spec's stated formulas (claims C3
and C4). -/

/-- Parse of a Camelot code into (number, letters) form: the number is
read from the digit characters, the letters are the alphabetic
characters uppercased; parsing fails when there is no digit. -/
def parseCamelot (s : String) : Option (Nat × List Char) :=
  match camelotNum s with
  | none => none
  | some n => some (n, camelotLetters s)

/-- Cyclic wheel distance `min(|n1-n2|, 12-|n1-n2|)` of spec §4.1. -/
def wheelDist (n1 n2 : Nat) : Int :=
  min (((n1 : Int) - (n2 : Int)).natAbs : Int)
    (12 - (((n1 : Int) - (n2 : Int)).natAbs : Int))

/-- Modelled from the spec's words (claim C4, spec §4.1): 6 if either
argument is missing, empty, or fails to parse into (number, letter)
form; 0 if numbers and letters both equal; 1 if numbers equal and
letters differ; with `w` the cyclic wheel distance, 1 when `w = 1` and
the letters are equal; and `w + (0 if letters equal else 1)` in all
remaining cases. -/
def keyDistanceSpec (a b : Option String) : Int :=
  match a, b with
  | some s1, some s2 =>
    if s1.isEmpty ∨ s2.isEmpty then 6
    else
      match parseCamelot s1, parseCamelot s2 with
      | some p1, some p2 =>
        if p1.1 = p2.1 ∧ p1.2 = p2.2 then 0
        else if p1.1 = p2.1 then 1
        else if wheelDist p1.1 p2.1 = 1 ∧ p1.2 = p2.2 then 1
        else wheelDist p1.1 p2.1 + (if p1.2 = p2.2 then 0 else 1)
      | _, _ => 6
  | _, _ => 6

/-- Modelled from the spec's words (claim C3, spec §4.2): tempo term
(minimum of the three candidates, or the fixed penalty 100) plus
`4.0 * key_distance(camelot1, camelot2)` — without the absolute value
the code applies to `key_distance`. -/
def distanceSpecC3 (s1 s2 : Song) : Int :=
  (if tempoOk s1.tempo && tempoOk s2.tempo then
      ((min (min ((s1.tempo.getD 0) - (s2.tempo.getD 0)).natAbs
          (((s1.tempo.getD 0) - 2 * (s2.tempo.getD 0)).natAbs))
        ((2 * (s1.tempo.getD 0) - (s2.tempo.getD 0)).natAbs) : Nat) : Int)
    else 100)
    + 4 * key_distance s1.camelot s2.camelot

/-- A pair of songs on which `distance` and the spec formula of claim
C3 disagree: both camelot codes parse, but the first carries the
out-of-wheel number 15, making `key_distance` negative (-2). -/
def c3song1 : Song := ⟨"", "", some 100, none, some "15A", ""⟩

/-- See `c3song1`. -/
def c3song2 : Song := ⟨"", "", some 100, none, some "1A", ""⟩

/-! ### Helper definition for the first-minimum scans -/

/-- The champion left after a left-to-right scan of `l` starting from
champion `b`, replacing the champion only on strict improvement of
`f`.  Both Python `min(iterable, key=f)` and the insertion scan of
`add_song_after` compute this. -/
def firstMinAux {β : Type} [LinearOrder β] (f : Nat → β) (l : List Nat) (b : Nat) : Nat :=
  l.foldl (fun c i => if f i < f c then i else c) b

/-! ### Concrete inputs used by the witness theorems -/

/-- Four songs with distinct tempos and no camelot data. -/
def wSongs4 : List Song :=
  [⟨"", "", some 120, none, none, ""⟩, ⟨"", "", some 100, none, none, ""⟩,
    ⟨"", "", some 121, none, none, ""⟩, ⟨"", "", some 99, none, none, ""⟩]

/-- A two-song ordered list. -/
def wList2 : List Song :=
  [⟨"", "", some 10, none, none, ""⟩, ⟨"", "", some 20, none, none, ""⟩]

/-- A song to insert into `wList2`. -/
def wNew : Song := ⟨"", "", some 10, none, none, ""⟩

/-- Three identical songs: every pairwise distance is equal, so the
nearest-neighbour selection among them is a pure tie. -/
def wSongs3 : List Song :=
  [⟨"", "", some 100, none, none, ""⟩, ⟨"", "", some 100, none, none, ""⟩,
    ⟨"", "", some 100, none, none, ""⟩]

/-! ### Symmetry of the distance functions -/

lemma natAbs_sub_comm (a b : Int) : (a - b).natAbs = (b - a).natAbs := by
  rw [← Int.natAbs_neg, neg_sub]

lemma key_distance_comm (a b : Option String) : key_distance a b = key_distance b a := by
  unfold key_distance
  by_cases h1 : truthyStr a <;> by_cases h2 : truthyStr b <;> simp only [h1, h2] <;> simp
  cases hn1 : camelotNum (a.getD "") with
  | none => cases hn2 : camelotNum (b.getD "") <;> simp
  | some n1 =>
    cases hn2 : camelotNum (b.getD "") with
    | none => simp
    | some n2 =>
      simp only
      have hw : |(n1 : Int) - n2| = |(n2 : Int) - n1| := abs_sub_comm _ _
      by_cases he : n1 = n2 <;>
        by_cases hl : camelotLetters (a.getD "") = camelotLetters (b.getD "") <;>
          simp [he, hl, eq_comm, hw]

lemma distance_comm (s1 s2 : Song) : distance s1 s2 = distance s2 s1 := by
  simp only [distance, key_distance_comm s1.camelot s2.camelot]
  cases h1 : tempoOk s1.tempo <;> cases h2 : tempoOk s2.tempo <;>
    simp only [h1, h2, Bool.and_true, Bool.and_false, Bool.true_and, Bool.false_and,
      if_true, if_false, Bool.false_eq_true, ite_false]
  congr 1
  rw [natAbs_sub_comm (s2.tempo.getD 0) (s1.tempo.getD 0),
    natAbs_sub_comm (s2.tempo.getD 0) (2 * s1.tempo.getD 0),
    natAbs_sub_comm (2 * s2.tempo.getD 0) (s1.tempo.getD 0)]
  exact (min_right_comm _ _ _).symm

/-! ### First-minimum scans -/

lemma firstMinAux_nil {β : Type} [LinearOrder β] (f : Nat → β) (b : Nat) :
    firstMinAux f [] b = b := rfl

lemma firstMinAux_cons {β : Type} [LinearOrder β] (f : Nat → β) (x : Nat) (xs : List Nat)
    (b : Nat) :
    firstMinAux f (x :: xs) b = firstMinAux f xs (if f x < f b then x else b) := rfl

/-- The champion of a strict-improvement scan is the initial champion
or a strictly better element of the list, and its value is minimal
over the list. -/
lemma firstMinAux_choice {β : Type} [LinearOrder β] (f : Nat → β) :
    ∀ (l : List Nat) (b : Nat),
      (firstMinAux f l b = b
          ∨ (firstMinAux f l b ∈ l ∧ f (firstMinAux f l b) < f b))
        ∧ ∀ y ∈ l, f (firstMinAux f l b) ≤ f y := by
  intro l
  induction l with
  | nil => intro b; exact ⟨Or.inl rfl, by simp⟩
  | cons x xs ih =>
    intro b
    rw [firstMinAux_cons]
    by_cases hx : f x < f b
    · rw [if_pos hx]
      obtain ⟨hc, hmin⟩ := ih x
      have hle : f (firstMinAux f xs x) ≤ f x := by
        rcases hc with h | ⟨_, hlt⟩
        · rw [h]
        · exact le_of_lt hlt
      refine ⟨?_, ?_⟩
      · rcases hc with h | ⟨hm, hlt⟩
        · exact Or.inr ⟨by rw [h]; exact List.mem_cons_self x xs, by rw [h]; exact hx⟩
        · exact Or.inr ⟨List.mem_cons_of_mem x hm, lt_trans hlt hx⟩
      · intro y hy
        rcases List.mem_cons.mp hy with rfl | hy'
        · exact hle
        · exact hmin y hy'
    · rw [if_neg hx]
      obtain ⟨hc, hmin⟩ := ih b
      have hbx : f b ≤ f x := le_of_not_lt hx
      have hle : f (firstMinAux f xs b) ≤ f b := by
        rcases hc with h | ⟨_, hlt⟩
        · rw [h]
        · exact le_of_lt hlt
      refine ⟨?_, ?_⟩
      · rcases hc with h | ⟨hm, hlt⟩
        · exact Or.inl h
        · exact Or.inr ⟨List.mem_cons_of_mem x hm, hlt⟩
      · intro y hy
        rcases List.mem_cons.mp hy with rfl | hy'
        · exact le_trans hle hbx
        · exact hmin y hy'

/-- On a strictly ascending list whose elements all exceed the initial
champion, every scanned position strictly below the final champion has
a strictly larger value: the scan keeps the first minimum. -/
lemma firstMinAux_first {β : Type} [LinearOrder β] (f : Nat → β) :
    ∀ (l : List Nat) (b : Nat), List.Sorted (· < ·) l → (∀ y ∈ l, b < y) →
      ∀ y, (y = b ∨ y ∈ l) → y < firstMinAux f l b →
        f (firstMinAux f l b) < f y := by
  intro l
  induction l with
  | nil =>
    intro b _ _ y hy hlt
    rcases hy with rfl | hy
    · rw [firstMinAux_nil] at hlt; exact absurd hlt (lt_irrefl y)
    · exact absurd hy (List.not_mem_nil y)
  | cons x xs ih =>
    intro b hs hb y hy hlt
    have hsx : List.Sorted (· < ·) xs := hs.of_cons
    have hxall : ∀ z ∈ xs, x < z := (List.sorted_cons.mp hs).1
    rw [firstMinAux_cons] at hlt ⊢
    by_cases hx : f x < f b
    · rw [if_pos hx] at hlt ⊢
      rcases hy with rfl | hy'
      · -- y is the initial champion b; the final champion is strictly better
        have hle : f (firstMinAux f xs x) ≤ f x := by
          rcases (firstMinAux_choice f xs x).1 with h | ⟨_, h2⟩
          · rw [h]
          · exact le_of_lt h2
        exact lt_of_le_of_lt hle hx
      · rcases List.mem_cons.mp hy' with rfl | hy2
        · exact ih y hsx hxall y (Or.inl rfl) hlt
        · exact ih x hsx hxall y (Or.inr hy2) hlt
    · rw [if_neg hx] at hlt ⊢
      have hbxs : ∀ z ∈ xs, b < z := fun z hz => hb z (List.mem_cons_of_mem x hz)
      rcases hy with rfl | hy'
      · exact ih y hsx hbxs y (Or.inl rfl) hlt
      · rcases List.mem_cons.mp hy' with rfl | hy2
        · -- y is the skipped head x: the champion ends below it in value
          rcases (firstMinAux_choice f xs b).1 with h | ⟨_, h2⟩
          · rw [h] at hlt
            exact absurd hlt (not_lt_of_gt (hb y (List.mem_cons_self y xs)))
          · exact lt_of_lt_of_le h2 (le_of_not_lt hx)
        · exact ih b hsx hbxs y (Or.inr hy2) hlt

/-- The pair-carrying scan of `bestPosition` computes `firstMinAux`
together with its value. -/
lemma foldlPair_eq (f : Nat → Int) :
    ∀ (l : List Nat) (b : Nat),
      l.foldl (fun bm i => if f i < bm.2 then (i, f i) else bm) (b, f b)
        = (firstMinAux f l b, f (firstMinAux f l b)) := by
  intro l
  induction l with
  | nil => intro b; rfl
  | cons x xs ih =>
    intro b
    rw [List.foldl_cons, firstMinAux_cons]
    by_cases hx : f x < f b
    · rw [if_pos hx, if_pos hx]; exact ih x
    · rw [if_neg hx, if_neg hx]; exact ih b

lemma sorted_lt_range' : ∀ (n s : Nat), List.Sorted (· < ·) (List.range' s n)
  | 0, _ => List.sorted_nil
  | n + 1, s => by
    rw [List.range'_succ]
    refine List.sorted_cons.mpr ⟨?_, sorted_lt_range' n (s + 1)⟩
    intro b hb
    have := (List.mem_range'_1.mp hb).1
    omega

/-! ### Path-cost lemmas -/

lemma pathCost_nil (songs : List Song) : pathCost songs [] = 0 := rfl

lemma pathCost_single (songs : List Song) (a : Nat) : pathCost songs [a] = 0 := rfl

lemma pathCost_cons_cons (songs : List Song) (a b : Nat) (l : List Nat) :
    pathCost songs (a :: b :: l)
      = distance (songs.getD a default) (songs.getD b default)
        + pathCost songs (b :: l) := rfl

/-- Splitting a path at an interior vertex `y` splits its cost. -/
lemma pathCost_append_cons (songs : List Song) :
    ∀ (X : List Nat) (y : Nat) (Z : List Nat),
      pathCost songs (X ++ y :: Z)
        = pathCost songs (X ++ [y]) + pathCost songs (y :: Z) := by
  intro X
  induction X with
  | nil => intro y Z; simp [pathCost_single]
  | cons x X' ih =>
    intro y Z
    cases X' with
    | nil =>
      cases Z with
      | nil => simp [pathCost_cons_cons, pathCost_single]
      | cons z Z' => simp [pathCost_cons_cons, pathCost_single]
    | cons x2 X'' =>
      have h1 : (x :: x2 :: X'') ++ y :: Z = x :: ((x2 :: X'') ++ y :: Z) := rfl
      have h2 : (x :: x2 :: X'') ++ [y] = x :: ((x2 :: X'') ++ [y]) := rfl
      rw [h1, h2]
      have h3 : (x2 :: X'') ++ y :: Z = x2 :: (X'' ++ y :: Z) := rfl
      have h4 : (x2 :: X'') ++ [y] = x2 :: (X'' ++ [y]) := rfl
      rw [h3, h4, pathCost_cons_cons, pathCost_cons_cons, ← h3, ← h4, ih]
      omega

/-- Reversing a path does not change its cost (`distance` is
symmetric). -/
lemma pathCost_reverse_append (songs : List Song) :
    ∀ (l : List Nat) (a : Nat),
      pathCost songs (l.reverse ++ [a]) = pathCost songs (a :: l) := by
  intro l
  induction l with
  | nil => intro a; simp
  | cons x xs ih =>
    intro a
    rw [List.reverse_cons, List.append_assoc]
    have h1 : ([x] : List Nat) ++ [a] = x :: [a] := rfl
    rw [h1, pathCost_append_cons songs xs.reverse x [a], ih x,
      pathCost_cons_cons, pathCost_single, pathCost_cons_cons,
      distance_comm (songs.getD x default) (songs.getD a default)]
    omega

lemma pathCost_reverse (songs : List Song) (l : List Nat) :
    pathCost songs l.reverse = pathCost songs l := by
  cases l with
  | nil => rfl
  | cons x xs =>
    rw [List.reverse_cons, pathCost_reverse_append]

/-- Cost of a path `a :: L ++ [q]`: the entry edge, the interior cost,
and the exit edge. -/
lemma pathCost_mid (songs : List Song) :
    ∀ (L : List Nat) (a q : Nat), L ≠ [] →
      pathCost songs (a :: L ++ [q])
        = distance (songs.getD a default) (songs.getD (L.getD 0 0) default)
          + pathCost songs L
          + distance (songs.getD (L.getD (L.length - 1) 0) default)
            (songs.getD q default) := by
  intro L
  induction L with
  | nil => intro a q h; exact absurd rfl h
  | cons x xs ih =>
    intro a q _
    cases xs with
    | nil =>
      simp [pathCost_cons_cons, pathCost_single]
    | cons x2 xs2 =>
      have h1 : a :: (x :: x2 :: xs2) ++ [q] = a :: x :: ((x2 :: xs2) ++ [q]) := rfl
      rw [h1, pathCost_cons_cons]
      have h2 : x :: (x2 :: xs2) ++ [q] = x :: ((x2 :: xs2) ++ [q]) := rfl
      rw [← h2, ih x q (by simp), pathCost_cons_cons]
      have h3 : ((x :: x2 :: xs2).getD 0 0) = x := rfl
      have h4 : (x :: x2 :: xs2).getD ((x :: x2 :: xs2).length - 1) 0
          = (x2 :: xs2).getD ((x2 :: xs2).length - 1) 0 := by
        have h5 : (x :: x2 :: xs2).length - 1 = ((x2 :: xs2).length - 1) + 1 := by
          simp
        rw [h5, List.getD_cons_succ]
      have h6 : (x2 :: xs2).getD 0 0 = x2 := rfl
      rw [h3, h4, h6]
      omega

/-! ### Index / decomposition bridges -/

lemma getD_eq_getElem (l : List Nat) (k : Nat) (h : k < l.length) (d : Nat) :
    l.getD k d = l[k] := by
  rw [List.getD_eq_getElem?_getD, List.getElem?_eq_getElem h]; rfl

lemma take_eq_append_getD (l : List Nat) (i : Nat) (h1 : 1 ≤ i) (h2 : i - 1 < l.length) :
    l.take i = l.take (i - 1) ++ [l.getD (i - 1) 0] := by
  conv_lhs => rw [show i = (i - 1) + 1 by omega]
  rw [List.take_succ, List.getElem?_eq_getElem h2, getD_eq_getElem l _ h2]
  rfl

lemma drop_eq_getD_cons (l : List Nat) (j : Nat) (h : j < l.length) :
    l.drop j = l.getD j 0 :: l.drop (j + 1) := by
  rw [List.drop_eq_getElem_cons h, getD_eq_getElem l j h]

lemma getD_reverse_zero (l : List Nat) (h : l ≠ []) :
    l.reverse.getD 0 0 = l.getD (l.length - 1) 0 := by
  have hlen : 0 < l.length := List.length_pos.mpr h
  rw [List.getD_eq_getElem?_getD, List.getD_eq_getElem?_getD,
    List.getElem?_reverse hlen]
  simp

lemma getD_reverse_last (l : List Nat) (h : l ≠ []) :
    l.reverse.getD (l.reverse.length - 1) 0 = l.getD 0 0 := by
  have hlen : 0 < l.length := List.length_pos.mpr h
  rw [List.getD_eq_getElem?_getD, List.getD_eq_getElem?_getD, List.length_reverse,
    List.getElem?_reverse (by omega)]
  have he : l.length - 1 - (l.length - 1) = 0 := by omega
  rw [he]

/-! ### The 2-opt segment reversal strictly decreases path cost -/

lemma segment_length (tour : List Nat) (i j : Nat) (hij : i ≤ j) (hj : j ≤ tour.length) :
    ((tour.drop i).take (j - i)).length = j - i := by
  apply List.length_take_of_le
  rw [List.length_drop]
  omega

lemma segment_getD_zero (tour : List Nat) (i j : Nat) (hij : i < j) (_hj : j ≤ tour.length) :
    ((tour.drop i).take (j - i)).getD 0 0 = tour.getD i 0 := by
  rw [List.getD_eq_getElem?_getD, List.getD_eq_getElem?_getD, List.getElem?_take,
    if_pos (by omega), List.getElem?_drop]
  have he : i + 0 = i := by omega
  rw [he]

lemma segment_getD_last (tour : List Nat) (i j : Nat) (hij : i < j) (hj : j ≤ tour.length) :
    ((tour.drop i).take (j - i)).getD (((tour.drop i).take (j - i)).length - 1) 0
      = tour.getD (j - 1) 0 := by
  rw [segment_length tour i j (by omega) hj, List.getD_eq_getElem?_getD,
    List.getD_eq_getElem?_getD, List.getElem?_take, if_pos (by omega),
    List.getElem?_drop]
  have he : i + (j - i - 1) = j - 1 := by omega
  rw [he]

lemma tour_split (tour : List Nat) (i j : Nat) (hij : i ≤ j) :
    tour = tour.take i ++ (tour.drop i).take (j - i) ++ tour.drop j := by
  have hd : tour.drop j = (tour.drop i).drop (j - i) := by
    rw [List.drop_drop]
    have : i + (j - i) = j := by omega
    rw [this]
  rw [hd, List.append_assoc, List.take_append_drop, List.take_append_drop]

/-- Cost of a tour of the shape `take i ++ M ++ drop j`, split at the
two junction edges. -/
lemma pathCost_three_blocks (songs : List Song) (tour : List Nat) (i j : Nat)
    (h1 : 1 ≤ i) (h2 : i - 1 < tour.length) (hj : j < tour.length) :
    ∀ M : List Nat, M ≠ [] →
      pathCost songs (tour.take i ++ M ++ tour.drop j)
        = pathCost songs (tour.take i)
          + (distance (songs.getD (tour.getD (i - 1) 0) default)
              (songs.getD (M.getD 0 0) default)
            + pathCost songs M
            + distance (songs.getD (M.getD (M.length - 1) 0) default)
              (songs.getD (tour.getD j 0) default))
          + pathCost songs (tour.drop j) := by
  intro M hM
  rw [take_eq_append_getD tour i h1 h2, drop_eq_getD_cons tour j hj]
  have e1 : (tour.take (i - 1) ++ [tour.getD (i - 1) 0]) ++ M
        ++ (tour.getD j 0 :: tour.drop (j + 1))
      = tour.take (i - 1)
        ++ (tour.getD (i - 1) 0 :: (M ++ tour.getD j 0 :: tour.drop (j + 1))) := by
    simp
  rw [e1, pathCost_append_cons songs (tour.take (i - 1)) (tour.getD (i - 1) 0)
    (M ++ tour.getD j 0 :: tour.drop (j + 1))]
  have e2 : tour.getD (i - 1) 0 :: (M ++ tour.getD j 0 :: tour.drop (j + 1))
      = (tour.getD (i - 1) 0 :: M) ++ tour.getD j 0 :: tour.drop (j + 1) := rfl
  rw [e2, pathCost_append_cons songs (tour.getD (i - 1) 0 :: M) (tour.getD j 0)
    (tour.drop (j + 1))]
  have e3 : (tour.getD (i - 1) 0 :: M) ++ [tour.getD j 0]
      = tour.getD (i - 1) 0 :: M ++ [tour.getD j 0] := rfl
  rw [e3, pathCost_mid songs M (tour.getD (i - 1) 0) (tour.getD j 0) hM]
  omega

/-- An accepted 2-opt move (app.py lines 277–279) strictly decreases
the total path cost of the tour. -/
lemma reverseSegment_cost_lt (songs : List Song) (tour : List Nat) (i j : Nat)
    (h1 : 1 ≤ i) (hij : i + 2 ≤ j) (hj : j < tour.length)
    (himp : improves songs tour (i, j) = true) :
    pathCost songs (reverseSegment tour i j) < pathCost songs tour := by
  have h2 : i - 1 < tour.length := by omega
  have hSlen : ((tour.drop i).take (j - i)).length = j - i :=
    segment_length tour i j (by omega) (by omega)
  have hSne : (tour.drop i).take (j - i) ≠ [] := by
    intro h
    rw [h] at hSlen
    simp at hSlen
    omega
  have hS0 : ((tour.drop i).take (j - i)).getD 0 0 = tour.getD i 0 :=
    segment_getD_zero tour i j (by omega) (by omega)
  have hSlast := segment_getD_last tour i j (by omega) (le_of_lt hj)
  have hcS := pathCost_three_blocks songs tour i j h1 h2 hj
    ((tour.drop i).take (j - i)) hSne
  have hcR := pathCost_three_blocks songs tour i j h1 h2 hj
    ((tour.drop i).take (j - i)).reverse (by simpa using hSne)
  rw [pathCost_reverse songs] at hcR
  rw [getD_reverse_zero _ hSne, getD_reverse_last _ hSne, hSlast, hS0] at hcR
  rw [hS0, hSlast] at hcS
  have himp' : distance (songs.getD (tour.getD (i - 1) 0) default)
        (songs.getD (tour.getD (j - 1) 0) default)
      + distance (songs.getD (tour.getD i 0) default)
        (songs.getD (tour.getD j 0) default)
      < distance (songs.getD (tour.getD (i - 1) 0) default)
        (songs.getD (tour.getD i 0) default)
      + distance (songs.getD (tour.getD (j - 1) 0) default)
        (songs.getD (tour.getD j 0) default) := by
    have hmod : j % tour.length = j := Nat.mod_eq_of_lt hj
    simpa [improves, hmod] using himp
  have hgoal : pathCost songs (reverseSegment tour i j)
      = pathCost songs (tour.take i ++ ((tour.drop i).take (j - i)).reverse
        ++ tour.drop j) := rfl
  rw [hgoal, hcR]
  conv_rhs => rw [tour_split tour i j (by omega), hcS]
  omega

/-! ### Properties of the 2-opt scan and iteration -/

/-- Membership in the scanned pair list is exactly the loop bounds of
app.py lines 264–267. -/
lemma mem_twoOptPairs (n : Nat) (p : Nat × Nat) :
    p ∈ twoOptPairs n ↔ 1 ≤ p.1 ∧ p.1 + 2 ≤ p.2 ∧ p.2 < n := by
  obtain ⟨i, j⟩ := p
  simp only [twoOptPairs, List.mem_flatMap, List.mem_map, List.mem_range'_1, Prod.mk.injEq]
  constructor
  · rintro ⟨i', ⟨hi1, hi2⟩, j', ⟨hj1, hj2⟩, rfl, rfl⟩
    omega
  · rintro ⟨h1, h2, h3⟩
    exact ⟨i, ⟨h1, by omega⟩, j, ⟨by omega, by omega⟩, rfl, rfl⟩

lemma twoOptStep_bounds (songs : List Song) (tour t' : List Nat)
    (h : twoOptStep songs tour = some t') :
    ∃ i j, 1 ≤ i ∧ i + 2 ≤ j ∧ j < tour.length
      ∧ improves songs tour (i, j) = true ∧ t' = reverseSegment tour i j := by
  unfold twoOptStep at h
  cases hfind : (twoOptPairs tour.length).find? (improves songs tour) with
  | none => rw [hfind] at h; simp at h
  | some p =>
    rw [hfind] at h
    simp only [Option.map_some'] at h
    obtain ⟨h1, h2, h3⟩ := (mem_twoOptPairs tour.length p).mp
      (List.mem_of_find?_eq_some hfind)
    exact ⟨p.1, p.2, h1, h2, h3, List.find?_some hfind, (Option.some.inj h).symm⟩

lemma twoOptStep_cost_lt (songs : List Song) (tour t' : List Nat)
    (h : twoOptStep songs tour = some t') :
    pathCost songs t' < pathCost songs tour := by
  obtain ⟨i, j, h1, h2, h3, himp, rfl⟩ := twoOptStep_bounds songs tour t' h
  exact reverseSegment_cost_lt songs tour i j h1 h2 h3 himp

lemma reverseSegment_perm (tour : List Nat) (i j : Nat) (hij : i ≤ j) :
    (reverseSegment tour i j).Perm tour := by
  conv_rhs => rw [tour_split tour i j hij]
  unfold reverseSegment
  simp only [List.append_assoc]
  exact List.Perm.append_left _ ((List.reverse_perm _).append_right _)

lemma twoOptStep_perm (songs : List Song) (tour t' : List Nat)
    (h : twoOptStep songs tour = some t') : t'.Perm tour := by
  obtain ⟨i, j, _, h2, _, _, rfl⟩ := twoOptStep_bounds songs tour t' h
  exact reverseSegment_perm tour i j (by omega)

lemma twoOptStep_head (songs : List Song) (tour t' : List Nat)
    (h : twoOptStep songs tour = some t') : t'.head? = tour.head? := by
  obtain ⟨i, j, h1, h2, h3, _, rfl⟩ := twoOptStep_bounds songs tour t' h
  cases tour with
  | nil => simp at h3
  | cons x xs =>
    unfold reverseSegment
    conv_lhs => rw [show i = (i - 1) + 1 by omega]
    rw [List.take_succ_cons]
    rfl

lemma twoOptIter_perm (songs : List Song) :
    ∀ (fuel : Nat) (tour : List Nat), (twoOptIter songs fuel tour).Perm tour := by
  intro fuel
  induction fuel with
  | zero => intro tour; exact List.Perm.refl tour
  | succ n ih =>
    intro tour
    unfold twoOptIter
    cases hstep : twoOptStep songs tour with
    | none => exact List.Perm.refl tour
    | some t' => exact (ih t').trans (twoOptStep_perm songs tour t' hstep)

lemma twoOptIter_head (songs : List Song) :
    ∀ (fuel : Nat) (tour : List Nat), (twoOptIter songs fuel tour).head? = tour.head? := by
  intro fuel
  induction fuel with
  | zero => intro tour; rfl
  | succ n ih =>
    intro tour
    unfold twoOptIter
    cases hstep : twoOptStep songs tour with
    | none => rfl
    | some t' => rw [ih t', twoOptStep_head songs tour t' hstep]

/-- Fuel adequacy: with more fuel than the initial path cost, the
iteration reaches a tour on which a full scan finds no improving
move. -/
lemma twoOptIter_fix_of_lt (songs : List Song) :
    ∀ (fuel : Nat) (tour : List Nat), pathCost songs tour < fuel →
      twoOptStep songs (twoOptIter songs fuel tour) = none := by
  intro fuel
  induction fuel with
  | zero => intro tour h; omega
  | succ n ih =>
    intro tour h
    unfold twoOptIter
    cases hstep : twoOptStep songs tour with
    | none => exact hstep
    | some t' =>
      exact ih t' (by have := twoOptStep_cost_lt songs tour t' hstep; omega)

lemma twoOptIter_of_none (songs : List Song) (tour : List Nat)
    (h : twoOptStep songs tour = none) :
    ∀ (m : Nat), twoOptIter songs m tour = tour := by
  intro m
  cases m with
  | zero => rfl
  | succ n => unfold twoOptIter; rw [h]

/-! ### Properties of the nearest-neighbour construction -/

lemma argminFirst_eq_some (f : Nat → Nat) (x : Nat) (xs : List Nat) :
    argminFirst f (x :: xs) = some (firstMinAux f xs x) := rfl

lemma argminFirst_mem (f : Nat → Nat) (l : List Nat) (m : Nat)
    (h : argminFirst f l = some m) : m ∈ l := by
  cases l with
  | nil => simp [argminFirst] at h
  | cons x xs =>
    rw [argminFirst_eq_some] at h
    obtain rfl : firstMinAux f xs x = m := by injection h
    rcases (firstMinAux_choice f xs x).1 with h' | ⟨h', _⟩
    · rw [h']; exact List.mem_cons_self x xs
    · exact List.mem_cons_of_mem x h'

/-- Erasing an element keeps the unvisited pool strictly ascending:
together with `List.sorted_lt_range` this is the invariant that makes
every pool reached by `nnLoop` from `nnTour`'s initial pool
`(range n).erase 0` satisfy the sortedness hypothesis of claim C9. -/
lemma sorted_erase (l : List Nat) (a : Nat) (h : List.Sorted (· < ·) l) :
    List.Sorted (· < ·) (l.erase a) :=
  List.Pairwise.sublist (List.erase_sublist a l) h

lemma sorted_range_erase_zero (n : Nat) :
    List.Sorted (· < ·) ((List.range n).erase 0) :=
  sorted_erase _ 0 (List.sorted_lt_range n)

lemma nnLoop_perm (songs : List Song) :
    ∀ (fuel : Nat) (current : Nat) (unvisited : List Nat),
      fuel = unvisited.length →
      (nnLoop songs fuel current unvisited).Perm unvisited := by
  intro fuel
  induction fuel with
  | zero =>
    intro current unvisited h
    cases unvisited with
    | nil => exact List.Perm.refl _
    | cons x xs => simp at h
  | succ n ih =>
    intro current unvisited h
    cases unvisited with
    | nil => simp at h
    | cons x xs =>
      rw [show nnLoop songs (n + 1) current (x :: xs)
          = firstMinAux (fun i => distance (songs.getD current default)
              (songs.getD i default)) xs x
            :: nnLoop songs n
              (firstMinAux (fun i => distance (songs.getD current default)
                (songs.getD i default)) xs x)
              ((x :: xs).erase (firstMinAux (fun i =>
                distance (songs.getD current default) (songs.getD i default)) xs x))
        from rfl]
      have hmem : firstMinAux (fun i => distance (songs.getD current default)
          (songs.getD i default)) xs x ∈ x :: xs :=
        argminFirst_mem _ _ _ (argminFirst_eq_some _ x xs)
      have hlen : ((x :: xs).erase (firstMinAux (fun i =>
          distance (songs.getD current default) (songs.getD i default)) xs x)).length
          = n := by
        rw [List.length_erase_of_mem hmem]
        simp at h ⊢
        omega
      exact (List.Perm.cons _ (ih _ _ hlen.symm)).trans
        (List.perm_cons_erase hmem).symm

lemma nnTour_perm (songs : List Song) (h : 1 ≤ songs.length) :
    (nnTour songs).Perm (List.range songs.length) := by
  unfold nnTour
  have h0 : 0 ∈ List.range songs.length := List.mem_range.mpr (by omega)
  have hlen : songs.length - 1 = ((List.range songs.length).erase 0).length := by
    rw [List.length_erase_of_mem h0, List.length_range]
  exact (List.Perm.cons 0 (nnLoop_perm songs _ 0 _ hlen)).trans
    (List.perm_cons_erase h0).symm

lemma optimizedTour_perm (songs : List Song) (h : 1 ≤ songs.length) :
    (optimizedTour songs).Perm (List.range songs.length) :=
  (twoOptIter_perm songs _ _).trans (nnTour_perm songs h)

lemma optimizedTour_length (songs : List Song) (h : 1 ≤ songs.length) :
    (optimizedTour songs).length = songs.length := by
  rw [(optimizedTour_perm songs h).length_eq, List.length_range]

/-! ### Reading songs back off an index list -/

lemma map_getD_range {α : Type} (d : α) :
    ∀ (l : List α), (List.range l.length).map (fun i => l.getD i d) = l := by
  intro l
  induction l with
  | nil => rfl
  | cons x xs ih =>
    rw [List.length_cons, List.range_succ_eq_map, List.map_cons, List.map_map]
    have h1 : ((x :: xs).getD 0 d) = x := rfl
    have h2 : ((fun i => (x :: xs).getD i d) ∘ (· + 1)) = fun i => xs.getD i d := by
      funext i
      simp [List.getD_cons_succ]
    rw [h1, h2, ih]

lemma getD_map_of_lt {α : Type} (f : Nat → α) (l : List Nat) (k : Nat)
    (h : k < l.length) (d : α) :
    (l.map f).getD k d = f (l.getD k 0) := by
  rw [List.getD_eq_getElem?_getD, List.getD_eq_getElem?_getD, List.getElem?_map,
    List.getElem?_eq_getElem h]
  rfl

/-! ### Claim theorems -/

/-- Claim C1: for every input list of song records,
`build_optimized_order` (`make_End_list`) returns a permutation of its
input: the output has the same length and the same multiset of records
as the input, with no record duplicated and none omitted. -/
theorem make_End_list_is_perm (Song_List : List Song) :
    (make_End_list Song_List).Perm Song_List
      ∧ (make_End_list Song_List).length = Song_List.length := by
  by_cases h : Song_List.length ≤ 1
  · rw [make_End_list, if_pos h]
    exact ⟨List.Perm.refl _, rfl⟩
  · rw [make_End_list, if_neg h]
    have hperm : ((optimizedTour Song_List).map fun i => Song_List.getD i default).Perm
        ((List.range Song_List.length).map fun i => Song_List.getD i default) :=
      (optimizedTour_perm Song_List (by omega)).map _
    rw [map_getD_range default Song_List] at hperm
    exact ⟨hperm, hperm.length_eq⟩

/-- Claim C7: `build_optimized_order` terminates on every finite input:
the 2-opt loop reaches a tour on which a full scan finds no improving
move (`twoOptStep … = none`), and iterating further never changes the
result — the fuel `pathCost + 1` used in the embedding models the
unbounded Python loop exactly. -/
theorem make_End_list_two_opt_terminates (songs : List Song) :
    twoOptStep songs (optimizedTour songs) = none
      ∧ ∀ (m : Nat), twoOptIter songs m (optimizedTour songs) = optimizedTour songs := by
  have hfix : twoOptStep songs (optimizedTour songs) = none :=
    twoOptIter_fix_of_lt songs _ _ (Nat.lt_succ_self _)
  exact ⟨hfix, twoOptIter_of_none songs _ hfix⟩

/-- Claim C10: the first element of the list returned by
`build_optimized_order` is the first element of the input:
nearest-neighbour construction starts at index 0, and the 2-opt scan
only reverses segments starting at position `i ≥ 1`. -/
theorem make_End_list_head (Song_List : List Song) :
    (make_End_list Song_List).head? = Song_List.head? := by
  by_cases h : Song_List.length ≤ 1
  · rw [make_End_list, if_pos h]
  · rw [make_End_list, if_neg h]
    have hh : (optimizedTour Song_List).head? = some 0 := by
      rw [optimizedTour, twoOptIter_head]
      rfl
    rw [List.head?_map, hh]
    cases Song_List with
    | nil => simp at h
    | cons s rest => rfl

/-- Claim C2: the order returned by `build_optimized_order` is 2-opt
locally optimal: for every scanned pair of positions
(`1 ≤ i < N - 2`, `i + 1 ≤ j < N`, `j - i ≠ 1`) the candidate edge
cost after a segment reversal is not strictly smaller than the current
edge cost. -/
theorem make_End_list_two_opt_local_opt (songs : List Song) (i j : Nat)
    (hi1 : 1 ≤ i) (hi2 : i < (make_End_list songs).length - 2)
    (hj1 : i + 1 ≤ j) (hj2 : j < (make_End_list songs).length)
    (hne : j - i ≠ 1) :
    distance ((make_End_list songs).getD (i - 1) default)
        ((make_End_list songs).getD i default)
      + distance ((make_End_list songs).getD (j - 1) default)
        ((make_End_list songs).getD (j % (make_End_list songs).length) default)
    ≤ distance ((make_End_list songs).getD (i - 1) default)
        ((make_End_list songs).getD (j - 1) default)
      + distance ((make_End_list songs).getD i default)
        ((make_End_list songs).getD (j % (make_End_list songs).length) default) := by
  by_cases hlen : songs.length ≤ 1
  · have hsmall : (make_End_list songs).length ≤ 1 := by
      rw [make_End_list, if_pos hlen]
      exact hlen
    omega
  · have h1 : 1 ≤ songs.length := by omega
    have hout : make_End_list songs
        = (optimizedTour songs).map fun k => songs.getD k default := by
      rw [make_End_list, if_neg hlen]
    have htlen : (optimizedTour songs).length = songs.length :=
      optimizedTour_length songs h1
    have hlen2 : (make_End_list songs).length = songs.length := by
      rw [hout, List.length_map, htlen]
    rw [hlen2] at hi2 hj2 ⊢
    have hj : j % songs.length = j := Nat.mod_eq_of_lt hj2
    have hnone : twoOptStep songs (optimizedTour songs) = none :=
      twoOptIter_fix_of_lt songs _ _ (Nat.lt_succ_self _)
    have hfalse : improves songs (optimizedTour songs) (i, j) = false := by
      unfold twoOptStep at hnone
      cases hfind : (twoOptPairs (optimizedTour songs).length).find?
          (improves songs (optimizedTour songs)) with
      | some p => rw [hfind] at hnone; simp at hnone
      | none =>
        have hmem : (i, j) ∈ twoOptPairs (optimizedTour songs).length :=
          (mem_twoOptPairs _ (i, j)).mpr ⟨hi1, by omega, by rw [htlen]; omega⟩
        have := List.find?_eq_none.mp hfind (i, j) hmem
        simpa using this
    have himp : ¬ (distance (songs.getD ((optimizedTour songs).getD (i - 1) 0) default)
          (songs.getD ((optimizedTour songs).getD (j - 1) 0) default)
        + distance (songs.getD ((optimizedTour songs).getD i 0) default)
          (songs.getD ((optimizedTour songs).getD
            (j % (optimizedTour songs).length) 0) default)
        < distance (songs.getD ((optimizedTour songs).getD (i - 1) 0) default)
          (songs.getD ((optimizedTour songs).getD i 0) default)
        + distance (songs.getD ((optimizedTour songs).getD (j - 1) 0) default)
          (songs.getD ((optimizedTour songs).getD
            (j % (optimizedTour songs).length) 0) default)) := by
      simpa [improves] using hfalse
    rw [htlen, hj] at himp
    have hb : ∀ k, k < songs.length →
        (make_End_list songs).getD k default
          = songs.getD ((optimizedTour songs).getD k 0) default := by
      intro k hk
      rw [hout]
      exact getD_map_of_lt _ _ k (by omega) default
    rw [hj, hb (i - 1) (by omega), hb i (by omega), hb (j - 1) (by omega),
      hb j (by omega)]
    omega

/-- Witness for claim C2's theorem at the concrete input `wSongs4`,
`i = 1`, `j = 3`. -/
theorem make_End_list_two_opt_local_opt_witness :
    (1 ≤ 1 ∧ 1 < (make_End_list wSongs4).length - 2 ∧ 1 + 1 ≤ 3
        ∧ 3 < (make_End_list wSongs4).length ∧ 3 - 1 ≠ 1)
      ∧ distance ((make_End_list wSongs4).getD (1 - 1) default)
          ((make_End_list wSongs4).getD 1 default)
        + distance ((make_End_list wSongs4).getD (3 - 1) default)
          ((make_End_list wSongs4).getD (3 % (make_End_list wSongs4).length) default)
      ≤ distance ((make_End_list wSongs4).getD (1 - 1) default)
          ((make_End_list wSongs4).getD (3 - 1) default)
        + distance ((make_End_list wSongs4).getD 1 default)
          ((make_End_list wSongs4).getD (3 % (make_End_list wSongs4).length) default) :=
  ⟨⟨by decide, by decide, by decide, by decide, by decide⟩,
    make_End_list_two_opt_local_opt wSongs4 1 3 (by decide) (by decide) (by decide)
      (by decide) (by decide)⟩

/-- Claim C3, counterexample: at `c3song1`/`c3song2` (both tempos 100,
camelot codes "15A" and "1A", both of which the code parses), the code
computes `min-tempo + 4·|key_distance|  = 8`, while the claim's formula
`min-tempo + 4·key_distance` yields `-8`, because `key_distance` is
`-2` here. -/
theorem distance_c3_counterexample :
    (distance c3song1 c3song2 : Int) ≠ distanceSpecC3 c3song1 c3song2
      ∧ distance c3song1 c3song2 = 8
      ∧ distanceSpecC3 c3song1 c3song2 = -8 :=
  ⟨by decide, by decide, by decide⟩

/-- Claim C3 as amended: `compute_distance` equals the tempo term (the
minimum of the three candidates when both tempos are present and
nonzero, the fixed penalty 100 otherwise) plus `4.0` times the
**absolute value** of `key_distance`. -/
theorem distance_eq_tempo_plus_abs_key (s1 s2 : Song) :
    distance s1 s2
      = (if tempoOk s1.tempo && tempoOk s2.tempo then
          min (min ((s1.tempo.getD 0) - (s2.tempo.getD 0)).natAbs
            (((s1.tempo.getD 0) - 2 * (s2.tempo.getD 0)).natAbs))
          ((2 * (s1.tempo.getD 0) - (s2.tempo.getD 0)).natAbs)
        else 100)
        + 4 * (key_distance s1.camelot s2.camelot).natAbs := by
  unfold distance
  by_cases h : (tempoOk s1.tempo && tempoOk s2.tempo) = true <;> simp [h]

/-- Claim C4: `key_distance` equals the spec's piecewise description
(`keyDistanceSpec`, written from the claim's words) on every pair of
optional camelot arguments. -/
theorem key_distance_eq_spec (a b : Option String) :
    key_distance a b = keyDistanceSpec a b := by
  cases a with
  | none => rfl
  | some s1 =>
    cases b with
    | none =>
      unfold key_distance keyDistanceSpec truthyStr
      simp
    | some s2 =>
      unfold key_distance keyDistanceSpec truthyStr parseCamelot wheelDist
      by_cases h1 : s1.isEmpty <;> by_cases h2 : s2.isEmpty <;>
        simp only [h1, h2, Bool.not_true, Bool.not_false, Bool.false_or,
          Bool.true_or, Bool.or_true, Bool.or_false, if_true, if_false,
          Option.getD_some, or_self, or_true, true_or, or_false, false_or,
          ite_true, ite_false, eq_self_iff_true] <;>
        try rfl
      cases hn1 : camelotNum s1 <;> cases hn2 : camelotNum s2 <;>
        simp [hn1, hn2]

/-- Claim C6: `compute_distance` is symmetric in its two songs, and
`key_distance` is symmetric in its two camelot arguments, including
missing and malformed codes (the parse reads digits and letters
wherever they occur in the string). -/
theorem distance_and_key_distance_symm :
    (∀ s1 s2 : Song, distance s1 s2 = distance s2 s1)
      ∧ ∀ a b : Option String, key_distance a b = key_distance b a :=
  ⟨fun s1 s2 => distance_comm s1 s2, fun a b => key_distance_comm a b⟩

/-- Claim C8, counterexample: `key_distance "1A" "7B" = 7 > 6` — the
in-pattern codes 1A and 7B sit at wheel distance 6 with differing
letters, so the fixed missing-data penalty 6 is not the maximum. -/
theorem key_distance_six_not_max :
    ¬ (key_distance (some "1A") (some "7B") ≤ 6) := by decide

/-- Claim C8 as amended: `key_distance` returns at most 7, and the
bound 7 is attained (wheel distance 6 plus letter penalty 1), so the
fixed penalty 6 for missing or unparseable codes is not the maximum
value. -/
theorem key_distance_le_seven :
    (∀ a b : Option String, key_distance a b ≤ 7)
      ∧ key_distance (some "1A") (some "7B") = 7 := by
  constructor
  · intro a b
    unfold key_distance
    by_cases hc : (!truthyStr a || !truthyStr b) = true
    · rw [if_pos hc]
      norm_num
    · rw [if_neg hc]
      cases hn1 : camelotNum (a.getD "") with
      | none => norm_num
      | some n1 =>
        cases hn2 : camelotNum (b.getD "") with
        | none => norm_num
        | some n2 =>
          simp only
          have hA : (0 : Int) ≤ (((n1 : Int) - (n2 : Int)).natAbs : Int) :=
            Int.natCast_nonneg _
          have hmin : min (((n1 : Int) - (n2 : Int)).natAbs : Int)
              (12 - (((n1 : Int) - (n2 : Int)).natAbs : Int)) ≤ 6 := by
            rcases le_total ((((n1 : Int) - (n2 : Int)).natAbs : Int))
                (12 - (((n1 : Int) - (n2 : Int)).natAbs : Int)) with h | h
            · rw [min_eq_left h]; omega
            · rw [min_eq_right h]; omega
          split_ifs <;> omega
  · decide

/-- Claim C9: at every nearest-neighbour construction step (the pool
being any strictly ascending unvisited list, the invariant maintained
by `nnTour`), the selected index attains the minimal distance from the
current song, and among equal-distance candidates the lowest index is
selected; the selection is exactly what `nnLoop` appends next. -/
theorem nn_selection_first_minimum (songs : List Song) (current : Nat)
    (unvisited : List Nat) (hs : List.Sorted (· < ·) unvisited)
    (hne : unvisited ≠ []) :
    ∃ m, argminFirst (fun i => distance (songs.getD current default)
          (songs.getD i default)) unvisited = some m
      ∧ m ∈ unvisited
      ∧ (∀ k ∈ unvisited,
          distance (songs.getD current default) (songs.getD m default)
            ≤ distance (songs.getD current default) (songs.getD k default))
      ∧ (∀ k ∈ unvisited,
          distance (songs.getD current default) (songs.getD k default)
              = distance (songs.getD current default) (songs.getD m default)
            → m ≤ k)
      ∧ ∀ fuel, nnLoop songs (fuel + 1) current unvisited
          = m :: nnLoop songs fuel m (unvisited.erase m) := by
  cases unvisited with
  | nil => exact absurd rfl hne
  | cons x xs =>
    refine ⟨firstMinAux (fun i => distance (songs.getD current default)
        (songs.getD i default)) xs x, rfl,
      argminFirst_mem _ _ _ rfl, ?_, ?_, fun fuel => rfl⟩
    · intro k hk
      rcases List.mem_cons.mp hk with hkx | hk2
      · rcases (firstMinAux_choice (fun i => distance (songs.getD current default)
            (songs.getD i default)) xs x).1 with h' | ⟨_, hlt⟩
        · rw [hkx, h']
        · rw [hkx]
          exact le_of_lt hlt
      · exact (firstMinAux_choice (fun i => distance (songs.getD current default)
          (songs.getD i default)) xs x).2 k hk2
    · intro k hk heq
      by_contra hnle
      push_neg at hnle
      have hmem2 : k = x ∨ k ∈ xs := List.mem_cons.mp hk
      have hlt : distance (songs.getD current default)
            (songs.getD (firstMinAux (fun i => distance (songs.getD current default)
              (songs.getD i default)) xs x) default)
          < distance (songs.getD current default) (songs.getD k default) :=
        firstMinAux_first (fun i => distance (songs.getD current default)
          (songs.getD i default)) xs x hs.of_cons (List.sorted_cons.mp hs).1
          k hmem2 hnle
      rw [heq] at hlt
      exact lt_irrefl _ hlt

/-- Witness for claim C9's theorem: three identical songs, current
index 0, unvisited pool `[1, 2]` — a pure tie, resolved to index 1. -/
theorem nn_selection_first_minimum_witness :
    List.Sorted (· < ·) ([1, 2] : List Nat) ∧ ([1, 2] : List Nat) ≠ []
      ∧ ∃ m, argminFirst (fun i => distance (wSongs3.getD 0 default)
            (wSongs3.getD i default)) [1, 2] = some m
        ∧ m ∈ ([1, 2] : List Nat)
        ∧ (∀ k ∈ ([1, 2] : List Nat),
            distance (wSongs3.getD 0 default) (wSongs3.getD m default)
              ≤ distance (wSongs3.getD 0 default) (wSongs3.getD k default))
        ∧ (∀ k ∈ ([1, 2] : List Nat),
            distance (wSongs3.getD 0 default) (wSongs3.getD k default)
                = distance (wSongs3.getD 0 default) (wSongs3.getD m default)
              → m ≤ k)
        ∧ ∀ fuel, nnLoop wSongs3 (fuel + 1) 0 [1, 2]
            = m :: nnLoop wSongs3 fuel m (([1, 2] : List Nat).erase m) :=
  ⟨by decide, by decide,
    nn_selection_first_minimum wSongs3 0 [1, 2] (by decide) (by decide)⟩

/-- Claim C5: for an ordered list of length at least 2,
`insert_into_order` (`add_song_after`) returns the input with the new
song spliced in at `bestPosition` (so the result is one element
longer; the input itself is not mutated — the embedding is pure and
the result shares the input's elements), where `bestPosition` is a
position of minimal added cost and every strictly earlier position has
strictly larger added cost (ties go to the lowest index). -/
theorem add_song_after_inserts_at_min (optimized_list : List Song) (new_song : Song)
    (h : 2 ≤ optimized_list.length) :
    add_song_after optimized_list new_song
        = optimized_list.take (bestPosition optimized_list new_song)
          ++ new_song :: optimized_list.drop (bestPosition optimized_list new_song)
      ∧ (add_song_after optimized_list new_song).length = optimized_list.length + 1
      ∧ bestPosition optimized_list new_song ≤ optimized_list.length
      ∧ (∀ i, i ≤ optimized_list.length →
          addedCost optimized_list new_song (bestPosition optimized_list new_song)
            ≤ addedCost optimized_list new_song i)
      ∧ ∀ i, i < bestPosition optimized_list new_song →
          addedCost optimized_list new_song (bestPosition optimized_list new_song)
            < addedCost optimized_list new_song i := by
  have hbp : bestPosition optimized_list new_song
      = firstMinAux (addedCost optimized_list new_song)
          (List.range' 1 optimized_list.length) 0 := by
    unfold bestPosition
    rw [foldlPair_eq (addedCost optimized_list new_song)
      (List.range' 1 optimized_list.length) 0]
  have hchoice := firstMinAux_choice (addedCost optimized_list new_song)
    (List.range' 1 optimized_list.length) 0
  have hble : bestPosition optimized_list new_song ≤ optimized_list.length := by
    rw [hbp]
    rcases hchoice.1 with h' | ⟨hm, _⟩
    · omega
    · have := (List.mem_range'_1.mp hm).2
      omega
  have hnemp : optimized_list.isEmpty = false := by
    cases optimized_list with
    | nil => simp at h
    | cons _ _ => rfl
  have hsplice : add_song_after optimized_list new_song
      = optimized_list.take (bestPosition optimized_list new_song)
        ++ new_song :: optimized_list.drop (bestPosition optimized_list new_song) := by
    unfold add_song_after
    rw [if_neg (by rw [hnemp]; exact Bool.false_ne_true),
      if_neg (by omega : ¬ optimized_list.length = 1)]
    simp [List.append_assoc]
  refine ⟨hsplice, ?_, hble, ?_, ?_⟩
  · rw [hsplice]
    simp [List.length_append, List.length_take, List.length_drop]
    omega
  · intro i hi
    rw [hbp]
    rcases Nat.eq_zero_or_pos i with rfl | hipos
    · rcases hchoice.1 with h' | ⟨_, hlt⟩
      · exact le_of_eq (by rw [h'])
      · exact le_of_lt hlt
    · exact hchoice.2 i (List.mem_range'_1.mpr ⟨hipos, by omega⟩)
  · intro i hilt
    rw [hbp] at hilt ⊢
    have hb0 : ∀ y ∈ List.range' 1 optimized_list.length, 0 < y := by
      intro y hy
      have := (List.mem_range'_1.mp hy).1
      omega
    rcases Nat.eq_zero_or_pos i with rfl | hipos
    · exact firstMinAux_first (addedCost optimized_list new_song)
        (List.range' 1 optimized_list.length) 0
        (sorted_lt_range' optimized_list.length 1) hb0 0 (Or.inl rfl) hilt
    · have himem : i ∈ List.range' 1 optimized_list.length := by
        refine List.mem_range'_1.mpr ⟨hipos, ?_⟩
        rw [hbp] at hble
        omega
      exact firstMinAux_first (addedCost optimized_list new_song)
        (List.range' 1 optimized_list.length) 0
        (sorted_lt_range' optimized_list.length 1) hb0 i (Or.inr himem) hilt

/-- Witness for claim C5's theorem at the two-song list `wList2` and
new song `wNew`. -/
theorem add_song_after_inserts_at_min_witness :
    2 ≤ wList2.length
      ∧ (add_song_after wList2 wNew
          = wList2.take (bestPosition wList2 wNew)
            ++ wNew :: wList2.drop (bestPosition wList2 wNew)
        ∧ (add_song_after wList2 wNew).length = wList2.length + 1
        ∧ bestPosition wList2 wNew ≤ wList2.length
        ∧ (∀ i, i ≤ wList2.length →
            addedCost wList2 wNew (bestPosition wList2 wNew)
              ≤ addedCost wList2 wNew i)
        ∧ ∀ i, i < bestPosition wList2 wNew →
            addedCost wList2 wNew (bestPosition wList2 wNew)
              < addedCost wList2 wNew i) :=
  ⟨by decide, add_song_after_inserts_at_min wList2 wNew (by decide)⟩

end DJ
